import Mathlib

/-!
Verification of the vk-ip-hunter repository.  The file gives a shallow
embedding of the address-range predicate, backoff policy, shutdown
coordination, shared statistics store, notification listener and
resource tracking found in `vk_cloud_vm_creator.py` and
`vk_cloud_ip_reserver.py`, and proves theorems settling the
specification's claims about them.  Machine-level details that the
claims do not touch (timestamps, message text, network transport) are
abstracted; randomness is passed in as explicit sampler arguments so
that every theorem holds for every possible draw.
-/

/-- Split a character list at every occurrence of `sep`, the way
`str.split(sep)` splits a one-character separator (an empty input gives
one empty field, a trailing separator a trailing empty field). -/
def splitOnChar (sep : Char) : List Char → List (List Char)
  | [] => [[]]
  | c :: rest =>
    let r := splitOnChar sep rest
    if c = sep then [] :: r
    else
      match r with
      | [] => [[c]]
      | h :: t => (c :: h) :: t

/-- Parse one dotted-quad octet the way `ipaddress.IPv4Address` does:
ASCII digits only, at most three characters, no leading zero, value at
most 255. -/
def parseOctet (cs : List Char) : Option Nat :=
  if cs.isEmpty then none
  else if 3 < cs.length then none
  else if ¬ cs.all Char.isDigit then none
  else if 1 < cs.length ∧ cs.head? = some '0' then none
  else
    let v := cs.foldl (fun a c => 10 * a + (c.toNat - 48)) 0
    if v ≤ 255 then some v else none

/-- Parse a dotted-quad IPv4 string to its 32-bit numeric value, the way
`ipaddress.IPv4Address(ip_str)` does; malformed input yields `none`
(the Python constructor raises, and the only caller catches). -/
def parseIPv4 (s : String) : Option Nat :=
  match splitOnChar '.' s.toList with
  | [a, b, c, d] =>
    match parseOctet a, parseOctet b, parseOctet c, parseOctet d with
    | some x, some y, some z, some t => some (((x * 256 + y) * 256 + z) * 256 + t)
    | _, _, _, _ => none
  | _ => none

/-- Numeric value of a dotted quad, used to transcribe the configured
IP_RANGES constants. -/
def ipNum (a b c d : Nat) : Nat := ((a * 256 + b) * 256 + c) * 256 + d

/-- IP_RANGES of vk_cloud_vm_creator.py (its uncommented entries). -/
def IP_RANGES_creator : List (Nat × Nat) :=
  [(ipNum 95 163 248 10, ipNum 95 163 251 250),
   (ipNum 217 16 24 1, ipNum 217 16 24 2),
   (ipNum 217 16 24 3, ipNum 217 16 27 253)]

/-- IP_RANGES of vk_cloud_ip_reserver.py. -/
def IP_RANGES_reserver : List (Nat × Nat) :=
  [(ipNum 109 120 188 0, ipNum 109 120 191 255),
   (ipNum 89 208 228 0, ipNum 89 208 231 255),
   (ipNum 5 188 140 0, ipNum 5 188 143 255),
   (ipNum 95 163 248 0, ipNum 95 163 251 255)]

/-- is_ip_in_range from both scripts, parameterized by the IP_RANGES
constant it reads: parse the string, then linearly scan the inclusive
intervals; any parse failure is caught by the bare `except` and yields
`False`. -/
def is_ip_in_range (ranges : List (Nat × Nat)) (ip_str : String) : Bool :=
  match parseIPv4 ip_str with
  | none => false
  | some ip => ranges.any (fun r => decide (r.1 ≤ ip) && decide (ip ≤ r.2))

/-- Injectable randomness for human_like_delay: `gauss mean std` models
`int(random.gauss(mean, std))`, `expovariate rate` models
`int(random.expovariate(rate))` and `randint a b` models
`random.randint(a, b)`.  The samplers are unconstrained, so theorems
about the clamp hold for every possible draw. -/
structure RandGen where
  gauss : ℚ → ℚ → Int
  expovariate : ℚ → Int
  randint : Int → Int → Int

/-- human_like_delay from both scripts: draw according to the requested
distribution, then clamp the draw into [min_seconds, max_seconds].
Python floats are modelled as rationals.  (When
min_seconds + max_seconds = 0 the exponential branch of the Python code
raises ZeroDivisionError; rational division by zero instead passes
rate 0 to the sampler, which the claims never exercise.) -/
def human_like_delay (g : RandGen) (min_seconds max_seconds : Int)
    (distribution : String) : Int :=
  let delay : Int :=
    if distribution = "normal" then
      g.gauss (((min_seconds : ℚ) + (max_seconds : ℚ)) / 2)
        (((max_seconds : ℚ) - (min_seconds : ℚ)) / 4)
    else if distribution = "exponential" then
      g.expovariate (1 / (((min_seconds : ℚ) + (max_seconds : ℚ)) / 2))
    else
      g.randint min_seconds max_seconds
  max min_seconds (min max_seconds delay)

/-- Fixed sampler used to instantiate the delay theorems. -/
def sampleGen : RandGen :=
  { gauss := fun _ _ => 1000, expovariate := fun _ => 7, randint := fun a _ => a }

/-- Base probability 0.05 of random_break_chance. -/
def break_chance_base : ℚ := 5 / 100

/-- Per-attempt increment 0.01 of random_break_chance. -/
def break_chance_step : ℚ := 1 / 100

/-- Probability cap 0.25 of random_break_chance. -/
def break_chance_cap : ℚ := 25 / 100

/-- The threshold min(0.05 + attempt * 0.01, 0.25) that
random_break_chance compares the uniform draw against; it equals the
probability of returning True because `random.random()` is uniform on
[0, 1). -/
def breakProb (attempt : ℕ) : ℚ :=
  min (break_chance_base + attempt * break_chance_step) break_chance_cap

/-- random_break_chance from both scripts, with the uniform draw
`random.random()` passed in as `u`. -/
def random_break_chance (u : ℚ) (attempt : ℕ) : Bool :=
  decide (u < breakProb attempt)

/-- CLAIM C2: on any target range set, is_ip_in_range accepts a textual
form of each interval's low and high bound, rejects low-1 and high+1
when representable and covered by no interval of the set, and rejects
every string that does not parse as an IPv4 address (membership testing
is total). -/
theorem is_ip_in_range_boundary
    (ranges : List (Nat × Nat)) (lo hi : Nat) (slo shi sbelow sabove : String)
    (hmem : (lo, hi) ∈ ranges) (hlh : lo ≤ hi) (hlo1 : 1 ≤ lo)
    (hplo : parseIPv4 slo = some lo) (hphi : parseIPv4 shi = some hi)
    (hpb : parseIPv4 sbelow = some (lo - 1))
    (hnb : ∀ r ∈ ranges, ¬ (r.1 ≤ lo - 1 ∧ lo - 1 ≤ r.2))
    (hpa : parseIPv4 sabove = some (hi + 1))
    (hna : ∀ r ∈ ranges, ¬ (r.1 ≤ hi + 1 ∧ hi + 1 ≤ r.2)) :
    is_ip_in_range ranges slo = true ∧
    is_ip_in_range ranges shi = true ∧
    is_ip_in_range ranges sbelow = false ∧
    is_ip_in_range ranges sabove = false ∧
    ∀ s : String, parseIPv4 s = none → is_ip_in_range ranges s = false := by
  refine ⟨?_, ?_, ?_, ?_, ?_⟩
  · simp only [is_ip_in_range, hplo, List.any_eq_true]
    exact ⟨(lo, hi), hmem, by simp [hlh]⟩
  · simp only [is_ip_in_range, hphi, List.any_eq_true]
    exact ⟨(lo, hi), hmem, by simp [hlh]⟩
  · simp only [is_ip_in_range, hpb, List.any_eq_false]
    intro r hr
    have := hnb r hr
    simp only [Bool.and_eq_true, decide_eq_true_eq]
    tauto
  · simp only [is_ip_in_range, hpa, List.any_eq_false]
    intro r hr
    have := hna r hr
    simp only [Bool.and_eq_true, decide_eq_true_eq]
    tauto
  · intro s hs
    simp [is_ip_in_range, hs]

/-- Witness for C2 on the reserver's configured ranges at the boundary
of the 109.120.188.0/22 interval. -/
theorem is_ip_in_range_boundary_witness :
    is_ip_in_range IP_RANGES_reserver "109.120.188.0" = true ∧
    is_ip_in_range IP_RANGES_reserver "109.120.191.255" = true ∧
    is_ip_in_range IP_RANGES_reserver "109.120.187.255" = false ∧
    is_ip_in_range IP_RANGES_reserver "109.120.192.0" = false := by
  have h := is_ip_in_range_boundary IP_RANGES_reserver
    (ipNum 109 120 188 0) (ipNum 109 120 191 255)
    "109.120.188.0" "109.120.191.255" "109.120.187.255" "109.120.192.0"
    (by decide) (by decide) (by decide) (by decide) (by decide) (by decide)
    (by decide) (by decide) (by decide)
  exact ⟨h.1, h.2.1, h.2.2.1, h.2.2.2.1⟩

/-- CLAIM C4: for min_seconds ≤ max_seconds every value human_like_delay
returns lies in [min_seconds, max_seconds], whatever the sampler draws;
the normal branch samples with mean (min+max)/2 and spread (max-min)/4
and the exponential branch with rate 1/mean, mean = (min+max)/2, both
before clamping. -/
theorem human_like_delay_in_bounds (g : RandGen) (mn mx : Int)
    (distribution : String) (h : mn ≤ mx) :
    mn ≤ human_like_delay g mn mx distribution ∧
    human_like_delay g mn mx distribution ≤ mx ∧
    human_like_delay g mn mx "normal" =
      max mn (min mx (g.gauss (((mn : ℚ) + (mx : ℚ)) / 2) (((mx : ℚ) - (mn : ℚ)) / 4))) ∧
    human_like_delay g mn mx "exponential" =
      max mn (min mx (g.expovariate (1 / (((mn : ℚ) + (mx : ℚ)) / 2)))) := by
  refine ⟨le_max_left _ _, max_le h (min_le_left _ _), ?_, ?_⟩
  · simp [human_like_delay]
  · simp [human_like_delay]

/-- Witness for C4 at bounds [3, 10] with a sampler drawing far outside
the bounds. -/
theorem human_like_delay_in_bounds_witness :
    (3 : Int) ≤ 10 ∧
    (3 : Int) ≤ human_like_delay sampleGen 3 10 "normal" ∧
    human_like_delay sampleGen 3 10 "normal" ≤ 10 := by
  have h := human_like_delay_in_bounds sampleGen 3 10 "normal" (by decide)
  exact ⟨by decide, h.1, h.2.1⟩

/-- CLAIM C7: random_break_chance returns True exactly on the uniform
draws below min(0.05 + attempt * 0.01, 0.25), so its success
probability is that threshold; the threshold is non-decreasing in the
attempt number and never exceeds the cap 0.25. -/
theorem random_break_chance_spec (n m : ℕ) (u : ℚ) (hnm : n ≤ m) :
    (random_break_chance u n = true ↔
      u < min ((5 : ℚ) / 100 + (n : ℚ) * (1 / 100)) (25 / 100)) ∧
    breakProb n ≤ breakProb m ∧
    breakProb n ≤ break_chance_cap := by
  refine ⟨?_, ?_, min_le_right _ _⟩
  · simp [random_break_chance, breakProb, break_chance_base, break_chance_step,
      break_chance_cap]
  · apply min_le_min _ le_rfl
    have hc : (n : ℚ) ≤ (m : ℚ) := by exact_mod_cast hnm
    have := mul_le_mul_of_nonneg_right hc
      (by norm_num [break_chance_step] : (0 : ℚ) ≤ break_chance_step)
    exact add_le_add_left this _

/-- Witness for C7 at attempts 2 ≤ 7 and draw 1/10. -/
theorem random_break_chance_spec_witness :
    (2 ≤ 7) ∧
    (random_break_chance (1 / 10) 2 = true ↔
      (1 / 10 : ℚ) < min ((5 : ℚ) / 100 + ((2 : ℕ) : ℚ) * (1 / 100)) (25 / 100)) ∧
    breakProb 2 ≤ breakProb 7 ∧
    breakProb 2 ≤ break_chance_cap := by
  exact ⟨by decide, random_break_chance_spec 2 7 (1 / 10) (by decide)⟩

/-- Operations the repository performs on the shared `threading.Event`
named shutdown_event: `set` (called by signal_handler, by
check_and_notify_auth_error and by main on a match), timed `wait`, and
the `is_set` read.  No call site in either script clears the event, so
`clear` does not appear among the operations. -/
inductive EventOp
  | set
  | wait (timeout : ℕ)
  | isSet
deriving DecidableEq

/-- Effect of one shutdown_event operation on the flag. -/
def applyEventOp (b : Bool) : EventOp → Bool
  | EventOp.set => true
  | EventOp.wait _ => b
  | EventOp.isSet => b

/-- Flag value after a sequence of shutdown_event operations. -/
def runEvent (b : Bool) (ops : List EventOp) : Bool :=
  ops.foldl applyEventOp b

/-- Number of operations in the sequence that change the flag's value. -/
def effectiveTransitions (b : Bool) : List EventOp → ℕ
  | [] => 0
  | op :: rest =>
    (if applyEventOp b op = b then 0 else 1) +
      effectiveTransitions (applyEventOp b op) rest

theorem applyEventOp_true (op : EventOp) : applyEventOp true op = true := by
  cases op <;> rfl

theorem runEvent_true (ops : List EventOp) : runEvent true ops = true := by
  induction ops with
  | nil => rfl
  | cons op rest ih =>
    simp only [runEvent, List.foldl_cons, applyEventOp_true]
    exact ih

theorem effectiveTransitions_true (ops : List EventOp) :
    effectiveTransitions true ops = 0 := by
  induction ops with
  | nil => rfl
  | cons op rest ih =>
    simp only [effectiveTransitions, applyEventOp_true]
    simpa using ih

theorem runEvent_of_set_mem (ops : List EventOp) (h : EventOp.set ∈ ops) :
    runEvent false ops = true := by
  induction ops with
  | nil => cases h
  | cons op rest ih =>
    cases op with
    | set =>
      simp only [runEvent, List.foldl_cons, applyEventOp]
      exact runEvent_true rest
    | wait t =>
      simp only [runEvent, List.foldl_cons, applyEventOp]
      refine ih ?_
      rcases List.mem_cons.mp h with h1 | h2
      · cases h1
      · exact h2
    | isSet =>
      simp only [runEvent, List.foldl_cons, applyEventOp]
      refine ih ?_
      rcases List.mem_cons.mp h with h1 | h2
      · cases h1
      · exact h2

theorem effectiveTransitions_of_set_mem (ops : List EventOp)
    (h : EventOp.set ∈ ops) : effectiveTransitions false ops = 1 := by
  induction ops with
  | nil => cases h
  | cons op rest ih =>
    cases op with
    | set =>
      simp only [effectiveTransitions, applyEventOp]
      rw [if_neg (by simp)]
      rw [effectiveTransitions_true rest]
    | wait t =>
      simp only [effectiveTransitions, applyEventOp]
      simp only [if_true, Nat.zero_add]
      refine ih ?_
      rcases List.mem_cons.mp h with h1 | h2
      · cases h1
      · exact h2
    | isSet =>
      simp only [effectiveTransitions, applyEventOp]
      simp only [if_true, Nat.zero_add]
      refine ih ?_
      rcases List.mem_cons.mp h with h1 | h2
      · cases h1
      · exact h2

/-- CLAIM C5: once any call sequence contains a `set` of shutdown_event,
the flag is true, stays true under every further operation the system
performs, the whole history contains exactly one effective transition of
the flag, and from the stopping state no operation ever produces another
transition (nothing clears the flag). -/
theorem shutdown_event_single_transition (pre post : List EventOp)
    (h : EventOp.set ∈ pre) :
    runEvent false pre = true ∧
    runEvent false (pre ++ post) = true ∧
    effectiveTransitions false (pre ++ post) = 1 ∧
    effectiveTransitions true (pre ++ post) = 0 := by
  refine ⟨runEvent_of_set_mem pre h, ?_, ?_, effectiveTransitions_true _⟩
  · exact runEvent_of_set_mem _ (List.mem_append_left post h)
  · exact effectiveTransitions_of_set_mem _ (List.mem_append_left post h)

/-- Witness for C5: a signal followed by reads, a timed wait and a
second (idempotent) signal. -/
theorem shutdown_event_single_transition_witness :
    EventOp.set ∈ [EventOp.isSet, EventOp.set] ∧
    runEvent false [EventOp.isSet, EventOp.set] = true ∧
    runEvent false ([EventOp.isSet, EventOp.set] ++
      [EventOp.wait 5, EventOp.set, EventOp.isSet]) = true ∧
    effectiveTransitions false ([EventOp.isSet, EventOp.set] ++
      [EventOp.wait 5, EventOp.set, EventOp.isSet]) = 1 ∧
    effectiveTransitions true ([EventOp.isSet, EventOp.set] ++
      [EventOp.wait 5, EventOp.set, EventOp.isSet]) = 0 := by
  exact ⟨by decide, shutdown_event_single_transition _ _ (by decide)⟩

/-- Messages pushed through the Telegram channel, summarized by kind. -/
inductive Msg
  | authFinalStats
  | other
deriving DecidableEq

/-- Process-level state the auth-error path manipulates: the
shutdown_event flag and the outbound message log. -/
structure ProcState where
  shutdown : Bool
  sent : List Msg
deriving DecidableEq

/-- send_telegram_message: returns immediately when TELEGRAM_CHAT_ID is
empty, otherwise pushes the message (transport errors are caught and
ignored, so the push attempt itself is what is recorded). -/
def send_telegram_message (chatConfigured : Bool) (m : Msg)
    (sent : List Msg) : List Msg :=
  if chatConfigured then sent ++ [m] else sent

/-- check_and_notify_auth_error from both scripts, as executed on the
thread of the failed API call: when the exception carries a response
with status 401 it sets shutdown_event, sends one final statistics
summary, and `sys.exit(1)` raises SystemExit(1) on that same thread;
on any other exception it returns with no effect.  Every reachable
provisioning call runs on a ThreadPoolExecutor worker thread (the two
main-thread call sites, list_flavors and list_networks, are guarded by
configuration values that are hard-coded or defaulted non-empty).
Result: the new state, and the SystemExit code raised on the calling
thread if any. -/
def check_and_notify_auth_error (st : ProcState) (chatConfigured : Bool)
    (hasResponse : Bool) (status : ℕ) : ProcState × Option ℕ :=
  if hasResponse ∧ status = 401 then
    ({ st with
       shutdown := true,
       sent := send_telegram_message chatConfigured Msg.authFinalStats st.sent },
     some 1)
  else (st, none)

/-- Outcome of the HTTP request inside one VKCloudClient method. -/
inductive ApiOutcome
  | ok
  | err (hasResponse : Bool) (status : ℕ)

/-- Error path shared by every VKCloudClient method (create, describe,
delete, list): a raised RequestException is logged and handed to
check_and_notify_auth_error on the same worker thread. -/
def apiCallEffect (st : ProcState) (chatConfigured : Bool) :
    ApiOutcome → ProcState × Option ℕ
  | ApiOutcome.ok => (st, none)
  | ApiOutcome.err hasResponse status =>
    check_and_notify_auth_error st chatConfigured hasResponse status

/-- What a ThreadPoolExecutor future holds once its worker ends:
concurrent.futures catches BaseException, so a worker's SystemExit is
stored in the future instead of reaching the process. -/
inductive FutureOutcome
  | completed
  | raised (code : ℕ)

/-- Exit code of the process as decided by main's as_completed loop
when it reaches the auth-failing worker's future: main checks
shutdown_event first and breaks without calling future.result() when
the event is set, after which main returns normally and the process
exits 0; only an exception re-raised out of an actually performed
result() call could end the process with the worker's SystemExit
code. -/
def mainExitCode (shutdownSet : Bool) (f : FutureOutcome) : ℕ :=
  if shutdownSet then 0
  else
    match f with
    | FutureOutcome.completed => 0
    | FutureOutcome.raised code => code

/-- End-to-end process exit code after a provisioning call on a worker
thread receives a 401: check_and_notify_auth_error runs on the worker,
its SystemExit(1) is captured by the future, and by the time main's
loop sees that future complete, shutdown_event is already set. -/
def authErrorProcessExit (st : ProcState) (chatConfigured : Bool) : ℕ :=
  let r := apiCallEffect st chatConfigured (ApiOutcome.err true 401)
  mainExitCode r.1.shutdown
    (match r.2 with
     | some code => FutureOutcome.raised code
     | none => FutureOutcome.completed)

/-- CLAIM C3 (code bug witness): a provisioning call receiving a 401
does set the shared shutdown signal, does send one final statistics
summary, and sys.exit(1) does raise SystemExit(1) — but on the pool
worker thread, where the future captures it; main then breaks on the
already-set shutdown_event without calling future.result(), so the
process exits with code 0, not 1 as the claim and the spec's exit-code
contract require. -/
theorem auth_error_exit_code_zero (st : ProcState) :
    (apiCallEffect st true (ApiOutcome.err true 401)).1.shutdown = true ∧
    (apiCallEffect st true (ApiOutcome.err true 401)).1.sent =
      st.sent ++ [Msg.authFinalStats] ∧
    (apiCallEffect st true (ApiOutcome.err true 401)).2 = some 1 ∧
    authErrorProcessExit st true = 0 ∧
    authErrorProcessExit st true ≠ 1 := by
  refine ⟨?_, ?_, ?_, ?_, ?_⟩ <;>
    simp [apiCallEffect, check_and_notify_auth_error, send_telegram_message,
      authErrorProcessExit, mainExitCode]

/-- Mismatch and readiness-failure release path of the worker loop: the
delete call's boolean result decides whether the resource id leaves the
global tracking list (created_vms / reserved_ips). -/
def releaseTracked (tracked : List String) (rid : String)
    (deleteOk : Bool) : List String :=
  if deleteOk then
    if rid ∈ tracked then tracked.erase rid else tracked
  else tracked

/-- cleanup_vms / cleanup_floating_ips: attempt to delete every tracked
id in turn, counting the successes. -/
def cleanup_deleted_count (deleteOk : String → Bool)
    (tracked : List String) : ℕ :=
  (tracked.filter deleteOk).length

/-- CLAIM C10: a released resource id is removed from the global
tracking list only when the delete call reports success; on a failed
delete the id stays tracked, so the final cleanup pass still visits it
and can delete it. -/
theorem release_keeps_id_unless_deleted (tracked : List String)
    (rid : String) (hin : rid ∈ tracked) (hnd : tracked.Nodup) :
    releaseTracked tracked rid false = tracked ∧
    rid ∈ releaseTracked tracked rid false ∧
    releaseTracked tracked rid true = tracked.erase rid ∧
    rid ∉ releaseTracked tracked rid true ∧
    ∀ f : String → Bool, f rid = true →
      1 ≤ cleanup_deleted_count f (releaseTracked tracked rid false) := by
  refine ⟨rfl, hin, ?_, ?_, ?_⟩
  · simp [releaseTracked, hin]
  · simp only [releaseTracked, if_pos rfl, if_pos hin]
    exact hnd.not_mem_erase
  · intro f hf
    have hmem : rid ∈ tracked.filter f := List.mem_filter.mpr ⟨hin, hf⟩
    simpa [cleanup_deleted_count, releaseTracked] using
      List.length_pos_of_mem hmem

/-- Witness for C10 on a two-element tracking list. -/
theorem release_keeps_id_unless_deleted_witness :
    "vm1" ∈ ["vm1", "vm2"] ∧
    releaseTracked ["vm1", "vm2"] "vm1" false = ["vm1", "vm2"] ∧
    "vm1" ∈ releaseTracked ["vm1", "vm2"] "vm1" false ∧
    releaseTracked ["vm1", "vm2"] "vm1" true = ["vm1", "vm2"].erase "vm1" ∧
    "vm1" ∉ releaseTracked ["vm1", "vm2"] "vm1" true := by
  have h := release_keeps_id_unless_deleted ["vm1", "vm2"] "vm1"
    (by decide) (by decide)
  exact ⟨by decide, h.1, h.2.1, h.2.2.1, h.2.2.2.1⟩

/-- StatisticsRecord persisted in the statistics JSON file, restricted
to the fields the claims quantify over (the two timestamp fields
start_time and last_update are omitted). -/
structure StatsRecord where
  total_attempts : ℕ
  ip_addresses : List (String × ℕ)
deriving DecidableEq

/-- Fresh record built by load_statistics when the file is absent or
unreadable. -/
def freshStats : StatsRecord := ⟨0, []⟩

/-- One increment of an address count in the stats dictionary:
`stats["ip_addresses"][ip] += 1`, initializing the key to 1 when it is
absent. -/
def incIp : List (String × ℕ) → String → List (String × ℕ)
  | [], ip => [(ip, 1)]
  | (k, v) :: rest, ip =>
    if k = ip then (k, v + 1) :: rest else (k, v) :: incIp rest ip

/-- Sum of all address counts of a record. -/
def sumCounts (l : List (String × ℕ)) : ℕ := (l.map Prod.snd).sum

/-- In-memory modification step of update_statistics: increment
total_attempts by one, then bump the count of each reported address. -/
def updateRecord (r : StatsRecord) (ips : List String) : StatsRecord :=
  { total_attempts := r.total_attempts + 1,
    ip_addresses := ips.foldl incIp r.ip_addresses }

/-- load_statistics: an absent file gives a fresh record, and a read
failure is caught and likewise gives a fresh record. -/
def load_statistics (persisted : Option StatsRecord) (loadOk : Bool) :
    StatsRecord :=
  match persisted with
  | none => freshStats
  | some r => if loadOk then r else freshStats

/-- save_statistics: on success the whole record replaces the file
contents; a write failure is caught and leaves the file as it was. -/
def save_statistics (persisted : Option StatsRecord) (r : StatsRecord)
    (saveOk : Bool) : Option StatsRecord :=
  if saveOk then some r else persisted

/-- One non-interleaved run of update_statistics: load, modify in
memory, save. -/
def update_statistics (persisted : Option StatsRecord) (ips : List String)
    (loadOk saveOk : Bool) : Option StatsRecord :=
  save_statistics persisted (updateRecord (load_statistics persisted loadOk) ips)
    saveOk

/-- One update_statistics call of a trace: the addresses it records and
whether its load and its save succeed. -/
structure UpdateStep where
  ips : List String
  loadOk : Bool
  saveOk : Bool

/-- total_attempts as persisted on disk (0 while no file exists). -/
def totalOf (persisted : Option StatsRecord) : ℕ :=
  match persisted with
  | none => 0
  | some r => r.total_attempts

/-- Persisted file contents before, between and after a sequence of
update_statistics calls. -/
def persistedTrace (persisted : Option StatsRecord) :
    List UpdateStep → List (Option StatsRecord)
  | [] => [persisted]
  | s :: rest =>
    persisted :: persistedTrace (update_statistics persisted s.ips s.loadOk s.saveOk) rest

/-- Program counter of one worker inside update_statistics: it has not
yet loaded, holds a loaded snapshot of the persisted record, or has
saved and finished.  Only the save runs under stats_lock; the load and
the in-memory modification run outside it. -/
inductive CallerState
  | start
  | loaded (r : StatsRecord)
  | done
deriving DecidableEq

/-- One concurrent caller of update_statistics recording one address. -/
structure Caller where
  ip : String
  st : CallerState
deriving DecidableEq

/-- One atomic action of a caller against the persisted store: either
its load (outside stats_lock) or its modify-and-save (under
stats_lock). -/
def stepCaller (store : StatsRecord) (c : Caller) : StatsRecord × Caller :=
  match c.st with
  | CallerState.start => (store, { c with st := CallerState.loaded store })
  | CallerState.loaded r => (updateRecord r [c.ip], { c with st := CallerState.done })
  | CallerState.done => (store, c)

/-- Let caller `i` take its next atomic action. -/
def execStep (s : StatsRecord × List Caller) (i : ℕ) : StatsRecord × List Caller :=
  match s.2[i]? with
  | none => s
  | some c =>
    let r := stepCaller s.1 c
    (r.1, s.2.set i r.2)

/-- Run an interleaving of concurrent update_statistics calls: the
schedule names, in order, which caller takes its next atomic action. -/
def runSched (init : StatsRecord × List Caller) (sched : List ℕ) :
    StatsRecord × List Caller :=
  sched.foldl execStep init

/-- Whether every caller has completed its update_statistics call. -/
def allDone (cs : List Caller) : Bool :=
  cs.all (fun c => decide (c.st = CallerState.done))

/-- Fully serialized execution of the calls, each call's
load-modify-persist running as one critical section (what the claim
demands of the code). -/
def runSerial (store : StatsRecord) (ips : List String) : StatsRecord :=
  ips.foldl (fun st ip => updateRecord st [ip]) store

/-- CLAIM C1 (code bug witness): two concurrent callers against a fresh
store, interleaved load-load-save-save, both complete, yet the
persisted record has total_attempts = 1 and summed address counts 1
instead of 2 — the load-modify-persist sequence of update_statistics is
not a single critical section (only the save holds stats_lock), so an
update is lost. -/
theorem update_statistics_lost_update :
    allDone (runSched (freshStats,
      [⟨"a", CallerState.start⟩, ⟨"b", CallerState.start⟩]) [0, 1, 0, 1]).2 = true ∧
    (runSched (freshStats,
      [⟨"a", CallerState.start⟩, ⟨"b", CallerState.start⟩]) [0, 1, 0, 1]).1.total_attempts = 1 ∧
    sumCounts (runSched (freshStats,
      [⟨"a", CallerState.start⟩, ⟨"b", CallerState.start⟩]) [0, 1, 0, 1]).1.ip_addresses = 1 := by
  decide

theorem sumCounts_incIp (l : List (String × ℕ)) (ip : String) :
    sumCounts (incIp l ip) = sumCounts l + 1 := by
  induction l with
  | nil => rfl
  | cons p rest ih =>
    obtain ⟨k, v⟩ := p
    by_cases hk : k = ip
    · simp only [incIp, if_pos hk, sumCounts, List.map_cons, List.sum_cons]
      omega
    · simp only [incIp, if_neg hk, sumCounts, List.map_cons, List.sum_cons]
      have h2 : (List.map Prod.snd (incIp rest ip)).sum =
          (List.map Prod.snd rest).sum + 1 := ih
      omega

theorem sumCounts_updateRecord (r : StatsRecord) (ips : List String) :
    sumCounts (updateRecord r ips).ip_addresses =
      sumCounts r.ip_addresses + ips.length := by
  suffices h : ∀ (l0 : List (String × ℕ)),
      sumCounts (ips.foldl incIp l0) = sumCounts l0 + ips.length by
    exact h r.ip_addresses
  induction ips with
  | nil => intro l0; simp
  | cons ip rest ih =>
    intro l0
    simp only [List.foldl_cons, List.length_cons]
    rw [ih (incIp l0 ip), sumCounts_incIp]
    omega

/-- Fully serialized runs do satisfy the claimed counts: K calls give
total_attempts = K and summed address counts = K. -/
theorem runSerial_counts (store : StatsRecord) (ips : List String) :
    (runSerial store ips).total_attempts = store.total_attempts + ips.length ∧
    sumCounts (runSerial store ips).ip_addresses =
      sumCounts store.ip_addresses + ips.length := by
  induction ips generalizing store with
  | nil => simp [runSerial]
  | cons ip rest ih =>
    simp only [runSerial, List.foldl_cons, List.length_cons]
    have h := ih (updateRecord store [ip])
    simp only [runSerial] at h
    rw [h.1, h.2]
    constructor
    · simp [updateRecord]; omega
    · rw [sumCounts_updateRecord]
      simp only [List.length_singleton]
      omega

/-- CLAIM C6 counterexample: after two successful update_statistics
calls persist total_attempts 1 then 2, a third call whose load fails
(its save succeeding) persists total_attempts 1 again — load_statistics
replaced the unreadable file by a fresh zero record, so the persisted
counter is reset by a mere read failure, not only by external deletion
of the backing store. -/
theorem total_attempts_reset_on_load_failure :
    ((persistedTrace none
        [⟨["a"], true, true⟩, ⟨["a"], true, true⟩, ⟨["a"], false, true⟩]).map totalOf)
      = [0, 1, 2, 1] ∧
    ¬ List.Pairwise (fun a b => a ≤ b) ([0, 1, 2, 1] : List ℕ) := by
  decide

theorem totalOf_update_le (persisted : Option StatsRecord)
    (ips : List String) (saveOk : Bool) :
    totalOf persisted ≤ totalOf (update_statistics persisted ips true saveOk) := by
  cases saveOk with
  | false => simp [update_statistics, save_statistics]
  | true =>
    cases persisted with
    | none => simp [update_statistics, save_statistics, totalOf]
    | some r =>
      simp [update_statistics, save_statistics, load_statistics, totalOf,
        updateRecord]

theorem persistedTrace_head (persisted : Option StatsRecord)
    (steps : List UpdateStep) :
    ∃ tl, persistedTrace persisted steps = persisted :: tl := by
  cases steps <;> exact ⟨_, rfl⟩

/-- CLAIM C6 amended: provided every load in the sequence succeeds,
each persisted value of total_attempts is at least every previously
persisted value, whatever addresses are recorded and even when saves
fail; a failed load instead restarts the counter from a fresh record. -/
theorem total_attempts_monotone_when_loads_succeed
    (persisted : Option StatsRecord) (steps : List UpdateStep)
    (h : ∀ s ∈ steps, s.loadOk = true) :
    List.Pairwise (fun a b => a ≤ b)
      ((persistedTrace persisted steps).map totalOf) := by
  rw [← List.chain'_iff_pairwise]
  induction steps generalizing persisted with
  | nil => simp [persistedTrace]
  | cons s rest ih =>
    have hs : s.loadOk = true := h s (List.mem_cons_self s rest)
    have hrest : ∀ t ∈ rest, t.loadOk = true :=
      fun t ht => h t (List.mem_cons_of_mem s ht)
    simp only [persistedTrace, List.map_cons]
    obtain ⟨tl, htl⟩ :=
      persistedTrace_head (update_statistics persisted s.ips s.loadOk s.saveOk) rest
    rw [htl, List.map_cons, List.chain'_cons]
    constructor
    · rw [hs] at *
      exact totalOf_update_le persisted s.ips s.saveOk
    · have := ih (update_statistics persisted s.ips s.loadOk s.saveOk) hrest
      rw [htl, List.map_cons] at this
      exact this

/-- Witness for the amended C6 on a run with a failing save. -/
theorem total_attempts_monotone_witness :
    (∀ s ∈ [(⟨["a"], true, true⟩ : UpdateStep), ⟨["b"], true, false⟩,
        ⟨["b"], true, true⟩], s.loadOk = true) ∧
    List.Pairwise (fun a b => a ≤ b)
      ((persistedTrace none [(⟨["a"], true, true⟩ : UpdateStep),
        ⟨["b"], true, false⟩, ⟨["b"], true, true⟩]).map totalOf) := by
  refine ⟨by decide, ?_⟩
  exact total_attempts_monotone_when_loads_succeed none _ (by decide)

/-- Cursor update across one polled batch of telegram_bot_listener: for
each update in order, `if update_id:` guards
`last_update_id = max(last_update_id, update_id)` (a zero id, falsy in
Python, is skipped). -/
def stepCursor (cursor : ℕ) (batch : List ℕ) : ℕ :=
  batch.foldl (fun c uid => if uid = 0 then c else max c uid) cursor

/-- Cursor value after each iteration of the polling loop. -/
def cursorTrace (cursor : ℕ) : List (List ℕ) → List ℕ
  | [] => []
  | b :: rest => stepCursor cursor b :: cursorTrace (stepCursor cursor b) rest

/-- Cursor value at the start of each iteration of the polling loop. -/
def cursorsBefore (cursor : ℕ) : List (List ℕ) → List ℕ
  | [] => []
  | b :: rest => cursor :: cursorsBefore (stepCursor cursor b) rest

/-- Offset parameter sent with each getUpdates poll: always the current
last_update_id plus one. -/
def listenerOffsets (cursor : ℕ) : List (List ℕ) → List ℕ
  | [] => []
  | b :: rest => (cursor + 1) :: listenerOffsets (stepCursor cursor b) rest

/-- Modelled from the spec: the getUpdates transport is an external
collaborator, and polling with an offset returns only updates whose id
is at least that offset, so a well-behaved sequence of polled batches
satisfies this predicate. -/
def honorsOffsets (cursor : ℕ) : List (List ℕ) → Bool
  | [] => true
  | b :: rest =>
    b.all (fun uid => decide (cursor + 1 ≤ uid)) &&
      honorsOffsets (stepCursor cursor b) rest

/-- The batch processed by iteration `i` of the polling loop. -/
def batchAt (batches : List (List ℕ)) (i : ℕ) : List ℕ :=
  (batches[i]?).getD []

theorem le_stepCursor (b : List ℕ) (c : ℕ) : c ≤ stepCursor c b := by
  induction b generalizing c with
  | nil => exact le_rfl
  | cons uid rest ih =>
    simp only [stepCursor, List.foldl_cons]
    by_cases h : uid = 0
    · rw [if_pos h]; exact ih c
    · rw [if_neg h]
      exact le_trans (le_max_left c uid) (ih (max c uid))

theorem mem_le_stepCursor (b : List ℕ) (c uid : ℕ) (hm : uid ∈ b)
    (h0 : uid ≠ 0) : uid ≤ stepCursor c b := by
  induction b generalizing c with
  | nil => cases hm
  | cons x rest ih =>
    simp only [stepCursor, List.foldl_cons]
    rcases List.mem_cons.mp hm with h1 | h2
    · subst h1
      rw [if_neg h0]
      exact le_trans (le_max_right c uid) (le_stepCursor rest (max c uid))
    · by_cases hx : x = 0
      · rw [if_pos hx]; exact ih c h2
      · rw [if_neg hx]; exact ih (max c x) h2

theorem honors_mem_lower (batches : List (List ℕ)) (c uid j : ℕ)
    (h : honorsOffsets c batches = true) (hm : uid ∈ batchAt batches j) :
    c + 1 ≤ uid := by
  induction batches generalizing c j with
  | nil => simp [batchAt] at hm
  | cons b rest ih =>
    simp only [honorsOffsets, Bool.and_eq_true, List.all_eq_true] at h
    cases j with
    | zero =>
      have := h.1 uid (by simpa [batchAt] using hm)
      exact of_decide_eq_true this
    | succ j2 =>
      have hm2 : uid ∈ batchAt rest j2 := by simpa [batchAt] using hm
      have := ih (stepCursor c b) j2 h.2 hm2
      have hle : c ≤ stepCursor c b := le_stepCursor b c
      omega

theorem cursorTrace_chain (batches : List (List ℕ)) (c : ℕ) :
    List.Chain' (fun a b => a ≤ b) (c :: cursorTrace c batches) := by
  induction batches generalizing c with
  | nil => simp [cursorTrace]
  | cons b rest ih =>
    simp only [cursorTrace]
    rw [List.chain'_cons]
    exact ⟨le_stepCursor b c, ih (stepCursor c b)⟩

theorem listenerOffsets_eq (batches : List (List ℕ)) (c : ℕ) :
    listenerOffsets c batches = (cursorsBefore c batches).map (fun x => x + 1) := by
  induction batches generalizing c with
  | nil => rfl
  | cons b rest ih =>
    simp only [listenerOffsets, cursorsBefore, List.map_cons, List.cons.injEq]
    exact ⟨trivial, ih (stepCursor c b)⟩

theorem no_replay_aux (batches : List (List ℕ)) (c : ℕ)
    (h : honorsOffsets c batches = true) :
    ∀ i j uid, i < j → uid ∈ batchAt batches i → uid ∉ batchAt batches j := by
  induction batches generalizing c with
  | nil => intro i j uid _ hmi; simp [batchAt] at hmi
  | cons b rest ih =>
    simp only [honorsOffsets, Bool.and_eq_true, List.all_eq_true] at h
    intro i j uid hij hmi hmj
    cases i with
    | zero =>
      obtain ⟨j2, rfl⟩ : ∃ j2, j = j2 + 1 := ⟨j - 1, by omega⟩
      have hmi2 : uid ∈ b := by simpa [batchAt] using hmi
      have hmj2 : uid ∈ batchAt rest j2 := by simpa [batchAt] using hmj
      have hlow : c + 1 ≤ uid := of_decide_eq_true (h.1 uid hmi2)
      have hup : uid ≤ stepCursor c b :=
        mem_le_stepCursor b c uid hmi2 (by omega)
      have := honors_mem_lower rest (stepCursor c b) uid j2 h.2 hmj2
      omega
    | succ i2 =>
      obtain ⟨j2, rfl⟩ : ∃ j2, j = j2 + 1 := ⟨j - 1, by omega⟩
      have hmi2 : uid ∈ batchAt rest i2 := by simpa [batchAt] using hmi
      have hmj2 : uid ∈ batchAt rest j2 := by simpa [batchAt] using hmj
      exact ih (stepCursor c b) h.2 i2 j2 uid (by omega) hmi2 hmj2

/-- CLAIM C9: starting from last_update_id = 0, the listener's cursor is
monotonically non-decreasing across iterations, every poll is issued
with offset equal to the cursor plus one, and — given that the polled
batches honor the offsets sent — no update id appears in two distinct
polled batches, so no command update at or below the cursor is
processed a second time. -/
theorem telegram_listener_cursor (batches : List (List ℕ))
    (h : honorsOffsets 0 batches = true) :
    List.Chain' (fun a b => a ≤ b) (0 :: cursorTrace 0 batches) ∧
    listenerOffsets 0 batches = (cursorsBefore 0 batches).map (fun x => x + 1) ∧
    ∀ i j uid, i < j → uid ∈ batchAt batches i → uid ∉ batchAt batches j := by
  exact ⟨cursorTrace_chain batches 0, listenerOffsets_eq batches 0,
    no_replay_aux batches 0 h⟩

/-- Witness for C9 on three polled batches. -/
theorem telegram_listener_cursor_witness :
    honorsOffsets 0 [[1, 2], [3], [7]] = true ∧
    List.Chain' (fun a b => a ≤ b) (0 :: cursorTrace 0 [[1, 2], [3], [7]]) ∧
    listenerOffsets 0 [[1, 2], [3], [7]] =
      (cursorsBefore 0 [[1, 2], [3], [7]]).map (fun x => x + 1) ∧
    ∀ i j uid, i < j → uid ∈ batchAt [[1, 2], [3], [7]] i →
      uid ∉ batchAt [[1, 2], [3], [7]] j := by
  exact ⟨by decide, telegram_listener_cursor [[1, 2], [3], [7]] (by decide)⟩

/-- Whether shutdown_event.is_set holds at absolute time `t`, given the
time `sig` at which the event gets set (`none`: never).  Time is
counted in half-second units throughout the wait model, so the default
check_interval of 5 seconds is 10 units and the micro pauses of 0.5 to
2.0 seconds are 1 to 4 units. -/
def sigSet (sig : Option ℕ) (t : ℕ) : Bool :=
  match sig with
  | none => false
  | some s => decide (s ≤ t)

/-- The optional uninterruptible micro pause of one loop iteration of
human_like_wait (the 10% chance draw of `random.uniform(0.5, 2.0)`
slept with `time.sleep`): the new elapsed time and the sleep segment. -/
def microStep (micros : ℕ → Option ℕ) (k elapsed : ℕ) : ℕ × List ℕ :=
  match micros k with
  | some m => (elapsed + m, [m])
  | none => (elapsed, [])

/-- Semantics of `shutdown_event.wait(w)` started at time `t`: it
returns True as soon as the event is set, so it yields `some u` with
`u` the time at which it wakes early, and `none` when the event is not
set by `t + w` and the full timeout elapses. -/
def eventWait (sig : Option ℕ) (t w : ℕ) : Option ℕ :=
  match sig with
  | none => none
  | some s => if s ≤ t + w then some (max t s) else none

/-- The while-loop of human_like_wait.  Each iteration: exit when
`elapsed < seconds` fails (returning False); return True when
shutdown_event.is_set; optionally sleep the micro pause blind; then
`shutdown_event.wait(min check_interval (seconds - elapsed))`, either
waking early (returning True) or accounting the full tick and looping.
The structural fuel only bounds the iteration count: `seconds + 1`
iterations always suffice when `1 ≤ ci`, because every non-final
iteration advances `elapsed` by at least one unit.  Result: (returned
True, elapsed time at return, sleep segment lengths in order). -/
def human_like_wait_loop (sig : Option ℕ) (micros : ℕ → Option ℕ)
    (ci seconds : ℕ) : ℕ → ℕ → ℕ → Bool × ℕ × List ℕ
  | 0, _, elapsed => (false, elapsed, [])
  | fuel + 1, k, elapsed =>
    if elapsed < seconds then
      if sigSet sig elapsed then (true, elapsed, [])
      else
        let p := microStep micros k elapsed
        let w := min ci (seconds - p.1)
        match eventWait sig p.1 w with
        | some t => (true, t, p.2 ++ [t - p.1])
        | none =>
          let r := human_like_wait_loop sig micros ci seconds fuel (k + 1) (p.1 + w)
          (r.1, r.2.1, p.2 ++ w :: r.2.2)
    else (false, elapsed, [])

/-- human_like_wait from both scripts, started at time 0. -/
def human_like_wait (sig : Option ℕ) (micros : ℕ → Option ℕ)
    (ci seconds : ℕ) : Bool × ℕ × List ℕ :=
  human_like_wait_loop sig micros ci seconds (seconds + 1) 0 0

theorem human_like_wait_loop_sleeps (sig : Option ℕ)
    (micros : ℕ → Option ℕ) (ci seconds : ℕ)
    (hm : ∀ k m, micros k = some m → m ≤ ci) :
    ∀ fuel k elapsed d,
      d ∈ (human_like_wait_loop sig micros ci seconds fuel k elapsed).2.2 →
      d ≤ ci := by
  intro fuel
  induction fuel with
  | zero =>
    intro k e d hd
    simp [human_like_wait_loop] at hd
  | succ fuel ih =>
    intro k e d hd
    simp only [human_like_wait_loop] at hd
    by_cases h1 : e < seconds
    · rw [if_pos h1] at hd
      by_cases h2 : sigSet sig e = true
      · rw [if_pos h2] at hd
        simp at hd
      · rw [if_neg h2] at hd
        rcases hew : eventWait sig (microStep micros k e).1
            (min ci (seconds - (microStep micros k e).1)) with _ | t
        · simp only [hew, List.mem_append, List.mem_cons] at hd
          rcases hd with hmic | hw | hrec
          · rcases hmk : micros k with _ | m
            · simp [microStep, hmk] at hmic
            · simp only [microStep, hmk, List.mem_singleton] at hmic
              exact hmic ▸ hm k m hmk
          · exact hw ▸ min_le_left _ _
          · exact ih (k + 1) _ d hrec
        · simp only [hew, List.mem_append, List.mem_singleton] at hd
          rcases hd with hmic | hw
          · rcases hmk : micros k with _ | m
            · simp [microStep, hmk] at hmic
            · simp only [microStep, hmk, List.mem_singleton] at hmic
              exact hmic ▸ hm k m hmk
          · rcases hsig : sig with _ | s
            · rw [hsig] at hew; simp [eventWait] at hew
            · rw [hsig] at hew
              simp only [eventWait] at hew
              by_cases hsle : s ≤ (microStep micros k e).1 +
                  min ci (seconds - (microStep micros k e).1)
              · rw [if_pos hsle] at hew
                have ht : t = max (microStep micros k e).1 s :=
                  (Option.some.injEq _ _ ▸ hew).symm
                subst hw ht
                have : max (microStep micros k e).1 s -
                    (microStep micros k e).1 ≤
                    min ci (seconds - (microStep micros k e).1) := by
                  rcases max_cases (microStep micros k e).1 s with hc | hc <;> omega
                exact le_trans this (min_le_left _ _)
              · rw [if_neg hsle] at hew
                cases hew
    · rw [if_neg h1] at hd
      simp at hd

theorem human_like_wait_loop_true_time (micros : ℕ → Option ℕ)
    (ci seconds s : ℕ) (hm : ∀ k m, micros k = some m → m ≤ 4) :
    ∀ fuel k elapsed,
      (human_like_wait_loop (some s) micros ci seconds fuel k elapsed).1 = true →
      s ≤ (human_like_wait_loop (some s) micros ci seconds fuel k elapsed).2.1 ∧
      (human_like_wait_loop (some s) micros ci seconds fuel k elapsed).2.1 ≤
        max s elapsed + 4 := by
  intro fuel
  induction fuel with
  | zero =>
    intro k e h
    simp [human_like_wait_loop] at h
  | succ fuel ih =>
    intro k e h
    simp only [human_like_wait_loop] at h ⊢
    by_cases h1 : e < seconds
    · rw [if_pos h1] at h ⊢
      by_cases h2 : sigSet (some s) e = true
      · rw [if_pos h2] at h ⊢
        simp only [sigSet, decide_eq_true_eq] at h2
        have hmax := le_max_right s e
        refine ⟨h2, ?_⟩
        show e ≤ max s e + 4
        omega
      · rw [if_neg h2] at h ⊢
        simp only [sigSet, decide_eq_true_eq] at h2
        have hes : e < s := by omega
        have hp : (microStep micros k e).1 ≤ e + 4 ∧
            e ≤ (microStep micros k e).1 := by
          rcases hmk : micros k with _ | m
          · simp [microStep, hmk]
          · have := hm k m hmk
            simp [microStep, hmk]
            omega
        rcases hew : eventWait (some s) (microStep micros k e).1
            (min ci (seconds - (microStep micros k e).1)) with _ | t
        · simp only [hew] at h ⊢
          simp only [eventWait] at hew
          by_cases hsle : s ≤ (microStep micros k e).1 +
              min ci (seconds - (microStep micros k e).1)
          · rw [if_pos hsle] at hew; cases hew
          · have hrec := ih (k + 1)
              ((microStep micros k e).1 + min ci (seconds - (microStep micros k e).1)) h
            have hmax : max s ((microStep micros k e).1 +
                min ci (seconds - (microStep micros k e).1)) = s := by omega
            rw [hmax] at hrec
            have hr2 := le_max_left s e
            exact ⟨hrec.1, by omega⟩
        · simp only [hew] at h ⊢
          simp only [eventWait] at hew
          by_cases hsle : s ≤ (microStep micros k e).1 +
              min ci (seconds - (microStep micros k e).1)
          · rw [if_pos hsle, Option.some.injEq] at hew
            subst hew
            refine ⟨le_max_right _ _, ?_⟩
            have := le_max_left s e
            omega
          · rw [if_neg hsle] at hew; cases hew
    · rw [if_neg h1] at h
      simp at h

theorem human_like_wait_loop_false_time (micros : ℕ → Option ℕ)
    (ci seconds s : ℕ) :
    ∀ fuel k elapsed, elapsed < s →
      (human_like_wait_loop (some s) micros ci seconds fuel k elapsed).1 = false →
      (human_like_wait_loop (some s) micros ci seconds fuel k elapsed).2.1 < s := by
  intro fuel
  induction fuel with
  | zero =>
    intro k e hes _
    simpa [human_like_wait_loop] using hes
  | succ fuel ih =>
    intro k e hes h
    simp only [human_like_wait_loop] at h ⊢
    by_cases h1 : e < seconds
    · rw [if_pos h1] at h ⊢
      by_cases h2 : sigSet (some s) e = true
      · rw [if_pos h2] at h; cases h
      · rw [if_neg h2] at h ⊢
        rcases hew : eventWait (some s) (microStep micros k e).1
            (min ci (seconds - (microStep micros k e).1)) with _ | t
        · simp only [hew] at h ⊢
          simp only [eventWait] at hew
          by_cases hsle : s ≤ (microStep micros k e).1 +
              min ci (seconds - (microStep micros k e).1)
          · rw [if_pos hsle] at hew; cases hew
          · exact ih (k + 1) _ (by omega) h
        · simp only [hew] at h
          cases h
    · rw [if_neg h1] at h ⊢
      exact hes

theorem human_like_wait_loop_none (micros : ℕ → Option ℕ) (ci seconds : ℕ) :
    ∀ fuel k elapsed,
      (human_like_wait_loop none micros ci seconds fuel k elapsed).1 = false := by
  intro fuel
  induction fuel with
  | zero => intro k e; rfl
  | succ fuel ih =>
    intro k e
    simp only [human_like_wait_loop]
    by_cases h1 : e < seconds
    · rw [if_pos h1]
      have h2 : sigSet none e = false := rfl
      rw [h2]
      simp only [Bool.false_eq_true, if_false]
      have hew : eventWait none (microStep micros k e).1
          (min ci (seconds - (microStep micros k e).1)) = none := rfl
      simp only [hew]
      exact ih (k + 1) _
    · rw [if_neg h1]

/-- CLAIM C8: every sleep segment of human_like_wait is bounded by the
check interval (the 0.5-2.0 second micro pauses being below the default
5-second interval); the wait checks the shutdown signal at its start
and at every tick boundary, returning True no earlier than the signal
and at most one micro pause (at most 4 units, under one tick) after it;
when it returns False the signal had not yet been set at the moment of
return; a signal already set at the start is noticed before any sleep;
and without a signal the wait runs to completion returning False. -/
theorem human_like_wait_cancellable (sig : Option ℕ) (micros : ℕ → Option ℕ)
    (ci seconds : ℕ) (hci : 4 ≤ ci)
    (hm : ∀ k m, micros k = some m → 1 ≤ m ∧ m ≤ 4) :
    (∀ d ∈ (human_like_wait sig micros ci seconds).2.2, d ≤ ci) ∧
    (∀ s, sig = some s → (human_like_wait sig micros ci seconds).1 = true →
      s ≤ (human_like_wait sig micros ci seconds).2.1 ∧
      (human_like_wait sig micros ci seconds).2.1 ≤ s + 4) ∧
    (∀ s, sig = some s → 0 < s →
      (human_like_wait sig micros ci seconds).1 = false →
      (human_like_wait sig micros ci seconds).2.1 < s) ∧
    (sig = some 0 → 0 < seconds →
      human_like_wait sig micros ci seconds = (true, 0, [])) ∧
    (sig = none → (human_like_wait sig micros ci seconds).1 = false) := by
  refine ⟨?_, ?_, ?_, ?_, ?_⟩
  · intro d hd
    exact human_like_wait_loop_sleeps sig micros ci seconds
      (fun k m hk => le_trans (hm k m hk).2 hci) (seconds + 1) 0 0 d hd
  · intro s hsig htrue
    subst hsig
    have h := human_like_wait_loop_true_time micros ci seconds s
      (fun k m hk => (hm k m hk).2) (seconds + 1) 0 0 htrue
    simpa using h
  · intro s hsig hs hfalse
    subst hsig
    exact human_like_wait_loop_false_time micros ci seconds s
      (seconds + 1) 0 0 hs hfalse
  · intro hsig hsec
    subst hsig
    obtain ⟨t, rfl⟩ : ∃ t, seconds = t + 1 := ⟨seconds - 1, by omega⟩
    simp [human_like_wait, human_like_wait_loop, sigSet]
  · intro hsig
    subst hsig
    exact human_like_wait_loop_none micros ci seconds (seconds + 1) 0 0

/-- Witness for C8: the default check interval (10 half-second units),
a 6-unit wait with no micro pauses and the signal set at time 3: the
wait returns True at time 3 after a single partial tick of 3 units. -/
theorem human_like_wait_cancellable_witness :
    (4 ≤ 10) ∧
    human_like_wait (some 3) (fun _ => none) 10 6 = (true, 3, [3]) ∧
    (∀ d ∈ (human_like_wait (some 3) (fun _ => none) 10 6).2.2, d ≤ 10) ∧
    (3 ≤ (human_like_wait (some 3) (fun _ => none) 10 6).2.1 ∧
      (human_like_wait (some 3) (fun _ => none) 10 6).2.1 ≤ 3 + 4) := by
  have h := human_like_wait_cancellable (some 3) (fun _ => none) 10 6
    (by decide) (fun _ m hk => Option.noConfusion hk)
  exact ⟨by decide, by decide, h.1, h.2.1 3 rfl (by decide)⟩
